import Mathlib

set_option maxHeartbeats 1000000

/-!
Shallow embedding of the schema dependency resolver and migration-diff engine
of the azure-sql-export repository, together with theorems settling the
specification claims.

Embedded source units:
* `src/azure_sql_import.py`: class `DependencyAnalyzer`
  (`add_object`, `add_dependency`, `topological_sort`),
  `AzureSQLImporter._normalize_sql`, `AzureSQLImporter.compare_schemas`.
* `src/pyazs/migrate.py`: `_definition_for_update`, the pure diff/bucket
  core of `generate_migration`.
* `src/pyazs/common.py`: the fixed iteration order of `OBJECT_QUERIES`.

Python dictionaries are modelled as insertion-ordered association lists and
Python sets as insertion-ordered duplicate-free lists; where CPython iterates
a `set` in hash order (the dependents sets, the cycle remainder), the
embedding uses insertion order as the deterministic stand-in, and no theorem
below depends on that choice except where explicitly noted.
-/

/-! ## DependencyAnalyzer (src/azure_sql_import.py, lines 46-122) -/

/-- State of `DependencyAnalyzer`: `object_types` is the insertion-ordered
dict `object -> type`; `dependencies` maps an object to the set of objects it
depends on; `dependents` maps an object to the set of objects depending on
it.  Sets are modelled as insertion-ordered lists without duplicates. -/
structure Analyzer where
  object_types : List (String × String)
  dependencies : List (String × List String)
  dependents : List (String × List String)
deriving Repr

/-- The empty analyzer (`__init__`). -/
def Analyzer.init : Analyzer := ⟨[], [], []⟩

/-- `defaultdict(set)` lookup: a missing key reads as the empty set. -/
def lookupSet (m : List (String × List String)) (k : String) : List String :=
  match m.find? (fun p => p.1 = k) with
  | some p => p.2
  | none => []

/-- `defaultdict(set)` update `m[k].add(v)`: append `v` to the entry of `k`
if not already there, creating the entry if missing. -/
def addToSet (m : List (String × List String)) (k v : String) :
    List (String × List String) :=
  match m with
  | [] => [(k, [v])]
  | (k', l) :: rest =>
      if k' = k then (k', if v ∈ l then l else l ++ [v]) :: rest
      else (k', l) :: addToSet rest k v

/-- Dict update `d[k] = v`, keeping the original insertion position. -/
def upsert (m : List (String × String)) (k v : String) : List (String × String) :=
  match m with
  | [] => [(k, v)]
  | (k', v') :: rest =>
      if k' = k then (k', v) :: rest else (k', v') :: upsert rest k v

/-- `DependencyAnalyzer.add_object`. -/
def add_object (s : Analyzer) (obj_name obj_type : String) : Analyzer :=
  { s with object_types := upsert s.object_types obj_name obj_type }

/-- `DependencyAnalyzer.add_dependency`: records the edge unless
`dependency != obj_name` fails — an exact, case-sensitive string comparison. -/
def add_dependency (s : Analyzer) (obj_name dependency : String) : Analyzer :=
  if dependency ≠ obj_name then
    { s with
      dependencies := addToSet s.dependencies obj_name dependency
      dependents := addToSet s.dependents dependency obj_name }
  else s

/-- One mutating call on a `DependencyAnalyzer`. -/
inductive AOp where
  | addObj (obj_name obj_type : String)
  | addDep (obj_name dependency : String)

/-- Run a sequence of analyzer calls from the fresh state. -/
def runOps (ops : List AOp) : Analyzer :=
  ops.foldl (fun s op =>
    match op with
    | .addObj n t => add_object s n t
    | .addDep a b => add_dependency s a b) Analyzer.init

/-- Registered object names, in dict (insertion) order. -/
def objKeys (s : Analyzer) : List String := s.object_types.map Prod.fst

/-- The dependency set of one object. -/
def depsOf (s : Analyzer) (n : String) : List String := lookupSet s.dependencies n

/-- The dependents set of one object. -/
def dependentsOf (s : Analyzer) (n : String) : List String := lookupSet s.dependents n

/-- Initial in-degrees: `in_degree[obj] = len(self.dependencies[obj])` for
registered objects; the `defaultdict(int)` reads `0` for any other name. -/
def initDeg (s : Analyzer) : String → Int := fun n =>
  if n ∈ objKeys s then ((depsOf s n).length : Int) else 0

/-- The inner `for dependent in self.dependents[obj]` loop: decrement each
dependent's in-degree and collect those that reach exactly zero, in order. -/
def processDeps (inDeg : String → Int) : List String → (String → Int) × List String
  | [] => (inDeg, [])
  | d :: ds =>
      let v := inDeg d - 1
      let inDeg' : String → Int := fun x => if x = d then v else inDeg x
      let rec' := processDeps inDeg' ds
      (rec'.1, (if v = 0 then [d] else []) ++ rec'.2)

/-- The Kahn `while queue` loop, with explicit fuel (the Python loop has no
fuel; `kahnLoop_spec` below shows the chosen fuel always drains the queue on
reachable states, so the leftover-queue component is `[]`).  Returns the
emitted order and the unconsumed queue. -/
def kahnLoop (s : Analyzer) : Nat → (String → Int) → List String → List String →
    List String × List String
  | 0, _, q, r => (r, q)
  | _ + 1, _, [], r => (r, [])
  | fuel + 1, inDeg, obj :: rest, r =>
      let pd := processDeps inDeg (dependentsOf s obj)
      kahnLoop s fuel pd.1 (rest ++ pd.2) (r ++ [obj])

/-- Queue seed: registered objects of in-degree zero, in dict order
(`deque([obj for obj in self.object_types if in_degree[obj] == 0])`). -/
def seedQueue (s : Analyzer) : List String :=
  (objKeys s).filter (fun n => initDeg s n = 0)

/-- The queue phase of `topological_sort` (result before cycle handling). -/
def kahnRun (s : Analyzer) : List String × List String :=
  kahnLoop s ((objKeys s).length + 1) (initDeg s) (seedQueue s) []

/-- `remaining = set(self.object_types.keys()) - set(result)` — the
identities reported by the `Circular dependencies detected` warning.  The
embedding enumerates the set difference in key-insertion order. -/
def cycleRemainder (s : Analyzer) : List String :=
  (objKeys s).filter (fun n => n ∉ (kahnRun s).1)

/-- `DependencyAnalyzer.topological_sort`: the queue-phase order followed by
the cycle remainder (`result.extend(remaining)`). -/
def topological_sort (s : Analyzer) : List String :=
  (kahnRun s).1 ++ cycleRemainder s

/-- `x` occurs at a strictly earlier position than `y` in `l`. -/
def appearsBefore (l : List α) (x y : α) : Prop :=
  ∃ i : Fin l.length, ∃ j : Fin l.length, i.1 < j.1 ∧ l.get i = x ∧ l.get j = y

instance {l : List α} {x y : α} [DecidableEq α] : Decidable (appearsBefore l x y) := by
  unfold appearsBefore; infer_instance

/-! ## Character-level utilities shared by the text-processing embeddings.
Inputs are ASCII SQL text; characters are processed as `List Char`. -/

/-- ASCII lower-casing, as applied by `str.lower()` / `re.IGNORECASE` on the
ASCII SQL text this tool handles. -/
def asciiLower (c : Char) : Char :=
  if 'A' ≤ c ∧ c ≤ 'Z' then Char.ofNat (c.toNat + 32) else c

/-- Python `\s` / `str.strip()` whitespace on ASCII text:
space, tab, newline, carriage return, vertical tab, form feed. -/
def isPySpace (c : Char) : Bool :=
  c = ' ' || c = '\t' || c = '\n' || c = '\r' || c = Char.ofNat 11 || c = Char.ofNat 12

/-- Python `\w` on ASCII text. -/
def isWordChar (c : Char) : Bool :=
  ('a' ≤ c && c ≤ 'z') || ('A' ≤ c && c ≤ 'Z') || ('0' ≤ c && c ≤ '9') || c = '_'

/-- If `pat` is a (case-sensitive) prefix of `l`, return the remainder. -/
def matchPrefixCS : List Char → List Char → Option (List Char)
  | [], l => some l
  | _ :: _, [] => none
  | p :: ps, c :: cs => if c = p then matchPrefixCS ps cs else none

/-- If `pat` (given lower-case) is a case-insensitive prefix of `l`,
return the remainder. -/
def matchPrefixCI : List Char → List Char → Option (List Char)
  | [], l => some l
  | _ :: _, [] => none
  | p :: ps, c :: cs => if asciiLower c = p then matchPrefixCI ps cs else none

/-- Find the first (case-sensitive) occurrence of `pat` in `l`; return the
text before the match and the text after it.  Fuel-driven scan. -/
def findSubAux (pat : List Char) : Nat → List Char → Option (List Char × List Char)
  | 0, _ => none
  | fuel + 1, l =>
      match matchPrefixCS pat l with
      | some rest => some ([], rest)
      | none =>
          match l with
          | [] => none
          | c :: cs =>
              match findSubAux pat fuel cs with
              | some (pre, rest) => some (c :: pre, rest)
              | none => none

/-- First occurrence of `pat` in `l` (case-sensitive). -/
def findSub (pat l : List Char) : Option (List Char × List Char) :=
  findSubAux pat (l.length + 1) l

/-- Whether `pat` occurs in `l` (Python `pat in l`). -/
def containsSub (pat l : List Char) : Bool := (findSub pat l).isSome

/-! ## `AzureSQLImporter._normalize_sql` (src/azure_sql_import.py, 240-283) -/

/-- `re.sub(r'/\*.*?Script Date:.*?\*/', '', _, flags=re.DOTALL)`:
repeatedly delete, left to right, the span from the first `/*` through the
first `Script Date:` after it through the first `*/` after that (lazy
quantifiers); if any of the three parts cannot be found the remaining text
has no further match. -/
def scriptDateSub : Nat → List Char → List Char
  | 0, l => l
  | fuel + 1, l =>
      match findSub ('/' :: '*' :: []) l with
      | none => l
      | some (pre, afterOpen) =>
          match findSub "Script Date:".toList afterOpen with
          | none => l
          | some (_, afterMark) =>
              match findSub ('*' :: '/' :: []) afterMark with
              | none => l
              | some (_, afterClose) => pre ++ scriptDateSub fuel afterClose

/-- `re.sub(pat + r'\s*', '', _, flags=re.IGNORECASE)` for a literal `pat`
(given lower-case): delete each occurrence together with the following
whitespace run, scanning left to right. -/
def subLitWS (pat : List Char) : Nat → List Char → List Char
  | 0, l => l
  | _ + 1, [] => []
  | fuel + 1, c :: rest =>
      match matchPrefixCI pat (c :: rest) with
      | some rem => subLitWS pat fuel (rem.dropWhile isPySpace)
      | none => c :: subLitWS pat fuel rest

/-- `re.sub(r'/\*.*?\*/', '', _, flags=re.DOTALL)`: delete each lazy
`/* ... */` block, left to right. -/
def commentSub : Nat → List Char → List Char
  | 0, l => l
  | fuel + 1, l =>
      match findSub ('/' :: '*' :: []) l with
      | none => l
      | some (pre, afterOpen) =>
          match findSub ('*' :: '/' :: []) afterOpen with
          | none => l
          | some (_, afterClose) => pre ++ commentSub fuel afterClose

/-- Split on `'\n'` (Python `str.split('\n')`). -/
def splitNL : List Char → List (List Char)
  | [] => [[]]
  | c :: rest =>
      let r := splitNL rest
      if c = '\n' then [] :: r
      else match r with
        | [] => [[c]]
        | h :: t => (c :: h) :: t

/-- Python `str.strip()` on ASCII text. -/
def stripPy (l : List Char) : List Char :=
  ((l.dropWhile isPySpace).reverse.dropWhile isPySpace).reverse

/-- `re.sub(r'\s+', ' ', line)`: collapse each whitespace run to one space. -/
def collapseWS : Nat → List Char → List Char
  | 0, l => l
  | _ + 1, [] => []
  | fuel + 1, c :: rest =>
      if isPySpace c then ' ' :: collapseWS fuel (rest.dropWhile isPySpace)
      else c :: collapseWS fuel rest

/-- The metadata-comment keywords of `_normalize_sql`. -/
def metaKeywords : List (List Char) :=
  ["generated on".toList, "script date".toList, "object:".toList,
   "table schema for".toList]

/-- The per-line phase of `_normalize_sql`: strip, drop empty lines, drop
`--` comment lines containing a metadata keyword (case-insensitive), keep
other `--` lines verbatim, collapse whitespace in the rest. -/
def normalizeLine (line : List Char) : Option (List Char) :=
  let line := stripPy line
  if line = [] then none
  else if line.take 2 = ('-' :: '-' :: []) then
    if metaKeywords.any (fun m => containsSub m (line.map asciiLower)) then none
    else some line
  else some (collapseWS line.length line)

/-- `AzureSQLImporter._normalize_sql`. -/
def normalize_sql (sql_text : List Char) : List Char :=
  if sql_text = [] then []
  else
    let t := scriptDateSub sql_text.length sql_text
    let t := subLitWS "set ansi_nulls on".toList t.length t
    let t := subLitWS "set quoted_identifier on".toList t.length t
    let t := subLitWS ('g' :: 'o' :: []) t.length t
    let t := commentSub t.length t
    List.intercalate ('\n' :: []) ((splitNL t).filterMap normalizeLine)

/-! ## `AzureSQLImporter.compare_schemas` (src/azure_sql_import.py, 558-582) -/

/-- Outcome of `compare_schemas`: `newObject` stands for the
`["New object: ..."]` return, `noDifferences` for `["No differences found"]`,
and `differences` for the non-empty `unified_diff` listing (whose text is
presentation only and is not modelled further). -/
inductive CompareResult where
  | newObject
  | noDifferences
  | differences
deriving DecidableEq, Repr

/-- `AzureSQLImporter.compare_schemas` (branch structure; the argument order
is `(new_schema, existing_schema)`). -/
def compare_schemas (new_schema existing_schema : List Char) : CompareResult :=
  if existing_schema = [] then .newObject
  else if normalize_sql new_schema = normalize_sql existing_schema then .noDifferences
  else .differences

/-! ## `_definition_for_update` (src/pyazs/migrate.py, 36-57) -/

/-- The object-type keys of `OBJECT_QUERIES`, in their fixed dict order. -/
inductive ObjType where
  | Tables
  | Views
  | StoredProcedures
  | Functions
  | Triggers
deriving DecidableEq, Repr

/-- `OBJECT_QUERIES` iteration order (src/pyazs/common.py, 4-36). -/
def objTypeOrder : List ObjType :=
  [.Tables, .Views, .StoredProcedures, .Functions, .Triggers]

/-- A whitespace-run split: `(l.takeWhile isPySpace, l.dropWhile isPySpace)`. -/
def spanWS (l : List Char) : List Char × List Char :=
  (l.takeWhile isPySpace, l.dropWhile isPySpace)

/-- Match one alternative of `(view|procedure|function|trigger)\b`
case-insensitively; return the matched characters in their original casing
and the remainder. -/
def parseTypeWord (l : List Char) : Option (List Char × List Char) :=
  (["view", "procedure", "function", "trigger"].map String.toList).firstM
    (fun kw =>
      match matchPrefixCI kw l with
      | some rest =>
          match rest with
          | [] => some (l.take kw.length, rest)
          | c :: _ => if isWordChar c then none else some (l.take kw.length, rest)
      | none => none)

/-- The `(\s+)(view|procedure|function|trigger)\b` tail of the header
pattern: mandatory whitespace followed by a type keyword. -/
def parseHeaderTail (ws1 r : List Char) :
    Option (List Char × List Char × List Char × List Char) :=
  let (ws2, r') := spanWS r
  if ws2 = [] then none
  else
    match parseTypeWord r' with
    | some (typ, rest) => some (ws1, ws2, typ, rest)
    | none => none

/-- Match `(\s*)create(?:\s+or\s+alter)?(\s+)(view|procedure|function|trigger)\b`
(case-insensitive) at the start of `l`, returning the captured leading
whitespace, the whitespace before the type keyword, the type keyword as
written, and the remainder after the match.  The optional `or alter` branch
is tried first, with backtracking to the plain branch, as in `re`. -/
def parseCreateHeader (l : List Char) :
    Option (List Char × List Char × List Char × List Char) :=
  let (ws1, l1) := spanWS l
  match matchPrefixCI "create".toList l1 with
  | none => none
  | some r1 =>
      let withOrAlter :=
        let (w, r2) := spanWS r1
        if w = [] then none
        else
          match matchPrefixCI ('o' :: 'r' :: []) r2 with
          | none => none
          | some r3 =>
              let (w2, r4) := spanWS r3
              if w2 = [] then none
              else
                match matchPrefixCI "alter".toList r4 with
                | none => none
                | some r5 => parseHeaderTail ws1 r5
      match withOrAlter with
      | some res => some res
      | none => parseHeaderTail ws1 r1

/-- Scan the line starts of `l` (position 0, then after each `'\n'`) for the
first match of the header pattern (the `(?m)^...` fallback); return the text
before the matching line start together with the captures. -/
def headerLineScan : Nat → List Char →
    Option (List Char × (List Char × List Char × List Char × List Char))
  | 0, _ => none
  | fuel + 1, l =>
      match parseCreateHeader l with
      | some g => some ([], g)
      | none =>
          match findSub ('\n' :: []) l with
          | none => none
          | some (pre, rest) =>
              match headerLineScan fuel rest with
              | some (pre', g) => some (pre ++ '\n' :: pre', g)
              | none => none

/-- The replacement `f"{m.group(1)}ALTER{m.group(2)}{m.group(3)}"` applied to
the captures, followed by the unmatched remainder. -/
def alterRewrite (g : List Char × List Char × List Char × List Char) : List Char :=
  g.1 ++ "ALTER".toList ++ g.2.1 ++ g.2.2.1 ++ g.2.2.2

/-- `_definition_for_update`: for views, procedures, functions and triggers,
rewrite the first `CREATE [OR ALTER] <type>` header to `ALTER <type>`, first
with the start-anchored pattern `^﻿?(\s*)create...` (which consumes and
drops an optional leading BOM), then with the per-line fallback
`(?m)^(\s*)create...`; otherwise (no match, or a table) return the
definition unchanged. -/
def definition_for_update (obj_type : ObjType) (definition : List Char) : List Char :=
  match obj_type with
  | .Views | .StoredProcedures | .Functions | .Triggers =>
      let startMatch :=
        match definition with
        | c :: rest =>
            if c = Char.ofNat 0xFEFF then parseCreateHeader rest
            else parseCreateHeader definition
        | [] => parseCreateHeader []
      match startMatch with
      | some g => alterRewrite g
      | none =>
          match headerLineScan (definition.length + 1) definition with
          | some (pre, g) => pre ++ alterRewrite g
          | none => definition
  | .Tables => definition

/-- The description of the update rewrite in the words of the specification:
the first line matching `^\s*CREATE(\s+OR\s+ALTER)?\s+(VIEW|PROCEDURE|`
`FUNCTION|TRIGGER)\b` (case-insensitive) has its `CREATE [OR ALTER]` token
rewritten to `ALTER`, preserving the surrounding whitespace and the
object-type token; if no line matches, the definition is unchanged. -/
def specHeaderRewrite (definition : List Char) : List Char :=
  match headerLineScan (definition.length + 1) definition with
  | some (pre, g) => pre ++ alterRewrite g
  | none => definition

/-- The BOM special case of the start-anchored pattern `^﻿?(\s*)create...`:
the header match obtained after consuming a leading byte-order mark. -/
def bomHeader (d : List Char) : Option (List Char × List Char × List Char × List Char) :=
  match d with
  | c :: rest => if c = Char.ofNat 0xFEFF then parseCreateHeader rest else none
  | [] => none

/-! ## The diff/bucket core of `generate_migration`
(src/pyazs/migrate.py, 93-203).

The Python function interleaves database I/O, printing and file writing with
the diff logic; the embedding keeps the pure core: the two catalogs are
inputs (`db_objs` per type from `get_db_objects(..., include_null=True)`,
`file_objs` per type from `get_file_objects`), and the outputs are the three
summary buckets and the ordered `migration_sql` chunk list.  The migration
file is written iff `migration_sql` is non-empty.  Each loop iteration
appends at most one entry per bucket/list, so the loops are rendered as
`filterMap` over the catalog in iteration order. -/

/-- `str.lower()` of an ASCII object name. -/
def lowerCL (l : List Char) : List Char := l.map asciiLower

/-- `file_objs.get(name)`: exact-name lookup (dict keys are unique; first
binding wins). -/
def assocFind (files : List (List Char × List Char)) (name : List Char) :
    Option (List Char) :=
  (files.find? (fun p => p.1 = name)).map (·.2)

/-- `file_objs_ci = {k.lower(): v for k, v in file_objs.items()}` followed by
`.get(name.lower())`: the comprehension lets the last binding of a
lower-cased key win. -/
def ciFind (files : List (List Char × List Char)) (name : List Char) :
    Option (List Char) :=
  (files.reverse.find? (fun p => lowerCL p.1 = lowerCL name)).map (·.2)

/-- The file-side lookup of `generate_migration`: exact name first, then the
case-insensitive fallback. -/
def fileLookup (files : List (List Char × List Char)) (name : List Char) :
    Option (List Char) :=
  match assocFind files name with
  | some v => some v
  | none => ciFind files name

/-- `name.lower() in db_names_lower`. -/
def memberCI (db : List (List Char × Option (List Char))) (name : List Char) : Bool :=
  db.any (fun p => lowerCL p.1 = lowerCL name)

/-- `obj_type[:-1]`: the singular used in the SQL comment headers. -/
def typeSingular : ObjType → String
  | .Tables => "Table"
  | .Views => "View"
  | .StoredProcedures => "StoredProcedure"
  | .Functions => "Function"
  | .Triggers => "Trigger"

/-- The object keyword of the per-type `DROP` statements. -/
def dropKeyword : ObjType → String
  | .Tables => "TABLE"
  | .Views => "VIEW"
  | .StoredProcedures => "PROCEDURE"
  | .Functions => "FUNCTION"
  | .Triggers => "TRIGGER"

/-- `f"-- Create {obj_type[:-1]}: {name}\n{db_def}\nGO\n"`. -/
def createSqlChunk (t : ObjType) (name dbDef : List Char) : List Char :=
  ("-- Create " ++ typeSingular t ++ ": ").toList ++ name
    ++ '\n' :: (dbDef ++ '\n' :: 'G' :: 'O' :: '\n' :: [])

/-- `f"-- Update {obj_type[:-1]}: {name}\n{ddl}\nGO\n"`. -/
def updateSqlChunk (t : ObjType) (name ddl : List Char) : List Char :=
  ("-- Update " ++ typeSingular t ++ ": ").toList ++ name
    ++ '\n' :: (ddl ++ '\n' :: 'G' :: 'O' :: '\n' :: [])

/-- `f"DROP <KEYWORD> [{schema_name}].[{name}];\n"`. -/
def dropSqlChunk (t : ObjType) (schemaName name : List Char) : List Char :=
  ("DROP " ++ dropKeyword t ++ " [").toList ++ schemaName
    ++ ']' :: '.' :: '[' :: (name ++ ']' :: ';' :: '\n' :: [])

/-- The sentinel suffix used for objects whose definition is `NULL`. -/
def unavailableSuffix : List Char := " (definition unavailable)".toList

/-- One `db_objs` iteration's contribution to the `created` bucket:
an object with no file counterpart is created — with the sentinel marker
instead of SQL when its definition is `NULL`. -/
def createdEntry (files : List (List Char × List Char))
    (p : List Char × Option (List Char)) : Option (List Char) :=
  match fileLookup files p.1 with
  | some _ => none
  | none =>
      match p.2 with
      | none => some (p.1 ++ unavailableSuffix)
      | some _ => some p.1

/-- One `db_objs` iteration's contribution to the `updated` bucket: both
definitions present and *exactly* unequal (`file_def != db_def`); a `NULL`
database definition with a file present is skipped entirely. -/
def updatedEntry (files : List (List Char × List Char))
    (p : List Char × Option (List Char)) : Option (List Char) :=
  match fileLookup files p.1, p.2 with
  | some f, some d => if f = d then none else some p.1
  | _, _ => none

/-- One `db_objs` iteration's contribution to `migration_sql`. -/
def dbSqlEntry (t : ObjType) (files : List (List Char × List Char))
    (p : List Char × Option (List Char)) : Option (List Char) :=
  match fileLookup files p.1, p.2 with
  | none, some d => some (createSqlChunk t p.1 d)
  | none, none => none
  | some _, none => none
  | some f, some d =>
      if f = d then none
      else some (updateSqlChunk t p.1 (definition_for_update t f))

/-- One `file_objs` iteration's contribution to the `dropped` bucket. -/
def droppedEntry (db : List (List Char × Option (List Char)))
    (p : List Char × List Char) : Option (List Char) :=
  if memberCI db p.1 then none else some p.1

/-- One `file_objs` iteration's contribution to `migration_sql`. -/
def dropSqlEntry (t : ObjType) (schemaName : List Char)
    (db : List (List Char × Option (List Char)))
    (p : List Char × List Char) : Option (List Char) :=
  if memberCI db p.1 then none else some (dropSqlChunk t schemaName p.1)

/-- `migration_sql` chunks of one object type: the create/update loop over
`db_objs` followed by the drop loop over `file_objs`. -/
def typeSql (schemaName : List Char) (t : ObjType)
    (db : List (List Char × Option (List Char)))
    (files : List (List Char × List Char)) : List (List Char) :=
  db.filterMap (dbSqlEntry t files) ++ files.filterMap (dropSqlEntry t schemaName db)

/-- The outcome of `generate_migration`: the per-type summary buckets and
the ordered SQL chunk list; the migration file is written iff
`migration_sql ≠ []`. -/
structure MigPlan where
  created : ObjType → List (List Char)
  updated : ObjType → List (List Char)
  dropped : ObjType → List (List Char)
  migration_sql : List (List Char)

/-- The pure diff core of `generate_migration`: iterate the object types in
`OBJECT_QUERIES` order, classify every object, and accumulate the buckets
and SQL chunks. -/
def generate_migration (schemaName : List Char)
    (dbCat : ObjType → List (List Char × Option (List Char)))
    (fileCat : ObjType → List (List Char × List Char)) : MigPlan where
  created t := (dbCat t).filterMap (createdEntry (fileCat t))
  updated t := (dbCat t).filterMap (updatedEntry (fileCat t))
  dropped t := (fileCat t).filterMap (droppedEntry (dbCat t))
  migration_sql := objTypeOrder.flatMap (fun t => typeSql schemaName t (dbCat t) (fileCat t))

/-- The buckets of a plan are all empty. -/
def MigPlan.bucketsEmpty (plan : MigPlan) : Prop :=
  ∀ t, plan.created t = [] ∧ plan.updated t = [] ∧ plan.dropped t = []

/-- Exact synchronisation of one type's catalogs: every database object has
a (case-insensitively matched) file whose text is byte-identical to the
database definition — or the database definition is `NULL` — and every file
name matches some database object case-insensitively. -/
def syncedType (db : List (List Char × Option (List Char)))
    (files : List (List Char × List Char)) : Prop :=
  (∀ p ∈ db, ∃ f, fileLookup files p.1 = some f ∧ (p.2 = none ∨ p.2 = some f)) ∧
  (∀ p ∈ files, memberCI db p.1 = true)

/-- View a file catalog as the database catalog it would produce once the
database is brought byte-identical to the files. -/
def dbOfFiles (files : List (List Char × List Char)) :
    List (List Char × Option (List Char)) :=
  files.map (fun p => (p.1, some p.2))

/-- Well-formedness of every reachable analyzer state: unique registered
keys, duplicate-free edge sets, and `dependencies`/`dependents` exact
transposes of each other. -/
structure AnalyzerWF (s : Analyzer) : Prop where
  keysNodup : (objKeys s).Nodup
  depsNodup : ∀ n, (depsOf s n).Nodup
  dependentsNodup : ∀ n, (dependentsOf s n).Nodup
  transpose : ∀ a b, a ∈ depsOf s b ↔ b ∈ dependentsOf s a

/-- Invariant of the Kahn loop state `(inDeg, queue, result)`:
no duplicates across result and queue, both contained in the registered
keys, the in-degree ledger records the initial degree minus the processed
dependencies, every result element's dependencies lie strictly before it,
every queued element's dependencies are already emitted, and every touched
node's in-degree is non-positive. -/
structure KahnInv (s : Analyzer) (inDeg : String → Int) (q r : List String) : Prop where
  nodup : (r ++ q).Nodup
  subK : ∀ x, x ∈ r ++ q → x ∈ objKeys s
  acct : ∀ n, inDeg n
    = initDeg s n - ((r.filter (fun x => x ∈ depsOf s n)).length : Int)
  ordered : ∀ r₁ x r₂, r = r₁ ++ x :: r₂ → ∀ d, d ∈ depsOf s x → d ∈ r₁
  queueReady : ∀ n, n ∈ q → ∀ d, d ∈ depsOf s n → d ∈ r
  nonpos : ∀ n, n ∈ r ++ q → inDeg n ≤ 0

/-! ## Concrete instances used by counterexamples and witnesses -/

/-- The spec's §8 actual definition: SSMS header, `SET ANSI_NULLS ON`, `GO`
separator, then the view body. -/
def ssmsHeaderedDef : List Char :=
  "/* Script Date: 1/1/2024 */\nSET ANSI_NULLS ON\nGO\nCREATE VIEW dbo.V AS SELECT 1".toList

/-- The spec's §8 desired definition: the bare view body. -/
def plainViewDef : List Char := "CREATE VIEW dbo.V AS SELECT 1".toList

/-- Database catalog holding one view `V` whose stored text carries the SSMS
header artifacts. -/
def dbCatHeadered : ObjType → List (List Char × Option (List Char))
  | .Views => [("V".toList, some ssmsHeaderedDef)]
  | _ => []

/-- File catalog holding the same view `V` without the artifacts. -/
def fileCatPlain : ObjType → List (List Char × List Char)
  | .Views => [("V".toList, plainViewDef)]
  | _ => []

/-- Database catalog with a single stored procedure `P` whose definition is
`NULL` (e.g. `WITH ENCRYPTION`). -/
def dbCatNullDef : ObjType → List (List Char × Option (List Char))
  | .StoredProcedures => [("P".toList, none)]
  | _ => []

/-- File catalog holding a file for the same procedure `P`. -/
def fileCatP : ObjType → List (List Char × List Char)
  | .StoredProcedures => [("P".toList, "CREATE PROCEDURE dbo.P AS SELECT 1".toList)]
  | _ => []

/-- The empty database catalog. -/
def dbCatEmpty : ObjType → List (List Char × Option (List Char)) := fun _ => []

/-- File catalog holding a table `T` and a view `V` whose text references
`dbo.T`, both absent from the (empty) database catalog. -/
def fileCatTV : ObjType → List (List Char × List Char)
  | .Tables => [("T".toList, "CREATE TABLE dbo.T (Id int)".toList)]
  | .Views => [("V".toList, "CREATE VIEW dbo.V AS SELECT Id FROM dbo.T".toList)]
  | _ => []

/-! ## Lemmas about the analyzer state -/

theorem lookupSet_addToSet_self (m : List (String × List String)) (k v : String) :
    lookupSet (addToSet m k v) k =
      (if v ∈ lookupSet m k then lookupSet m k else lookupSet m k ++ [v]) := by
  induction m with
  | nil => simp [addToSet, lookupSet]
  | cons p rest ih =>
      obtain ⟨k', l⟩ := p
      by_cases hk : k' = k
      · subst hk
        simp [addToSet, lookupSet, List.find?]
      · simp only [addToSet, if_neg hk]
        simpa [lookupSet, List.find?, hk] using ih

theorem lookupSet_addToSet_other (m : List (String × List String)) (k v q : String)
    (hq : q ≠ k) : lookupSet (addToSet m k v) q = lookupSet m q := by
  induction m with
  | nil => simp [addToSet, lookupSet, List.find?, Ne.symm hq]
  | cons p rest ih =>
      obtain ⟨k', l⟩ := p
      by_cases hk : k' = k
      · subst hk
        simp [addToSet, lookupSet, List.find?, Ne.symm hq]
      · simp only [addToSet, if_neg hk]
        by_cases hq' : k' = q
        · subst hq'
          simp [lookupSet, List.find?]
        · simp only [lookupSet, List.find?] at ih ⊢
          simpa [hq'] using ih

theorem mem_lookupSet_addToSet (m : List (String × List String)) (k v q x : String) :
    x ∈ lookupSet (addToSet m k v) q ↔
      x ∈ lookupSet m q ∨ (q = k ∧ x = v) := by
  by_cases hq : q = k
  · subst hq
    rw [lookupSet_addToSet_self]
    by_cases hv : v ∈ lookupSet m q
    · simp only [if_pos hv]; aesop
    · simp only [if_neg hv]; aesop
  · rw [lookupSet_addToSet_other m k v q hq]
    simp [hq]

/-- No object is ever recorded as its own dependency under exact string
equality: the guard `dependency != obj_name` in `add_dependency`. -/
theorem selfFree_of_run (ops : List AOp) :
    ∀ n, n ∉ depsOf (runOps ops) n := by
  suffices h : ∀ (l : List AOp) (s : Analyzer), (∀ n, n ∉ depsOf s n) →
      ∀ n, n ∉ depsOf (l.foldl (fun s op =>
        match op with
        | .addObj n t => add_object s n t
        | .addDep a b => add_dependency s a b) s) n by
    intro n
    exact h ops Analyzer.init (by intro n; simp [depsOf, Analyzer.init, lookupSet]) n
  intro l
  induction l with
  | nil => intro s hs n; simpa using hs n
  | cons op rest ih =>
      intro s hs n
      refine ih _ ?_ n
      intro m
      match op with
      | .addObj a t => simpa [add_object, depsOf] using hs m
      | .addDep a b =>
          by_cases hab : b ≠ a
          · simp only [add_dependency, if_pos hab, depsOf]
            rw [mem_lookupSet_addToSet]
            rintro (h | ⟨h1, h2⟩)
            · exact hs m h
            · exact hab (h2 ▸ h1 ▸ rfl)
          · simpa [add_dependency, hab] using hs m

/-- Claim C7, counterexample: `add_dependency` compares names with exact,
case-sensitive string equality, so a definition referencing its own name in
a different letter casing produces a self-edge under the claim's
case-insensitive identity: after `add_dependency("dbo.V", "DBO.V")`, the
dependency set of `dbo.V` contains `DBO.V`, whose lower-cased identity
equals that of `dbo.V`. -/
theorem claim_C7_counterexample :
    "DBO.V" ∈ depsOf (runOps [.addDep "dbo.V" "DBO.V"]) "dbo.V" ∧
      lowerCL "DBO.V".toList = lowerCL "dbo.V".toList ∧ "DBO.V" ≠ "dbo.V" := by
  refine ⟨by decide, by decide, by decide⟩

/-- Claim C7 (amended): identities in the dependency graph are compared
case-sensitively, not case-insensitively.  After any sequence of
`add_dependency` calls, an object `X` is never a member of its own
dependency set under exact string equality (`add_dependency(X, X)` is a
no-op); but a reference to the same identity in a different letter casing is
a distinct key and does create an edge. -/
theorem claim_C7_theorem :
    (∀ (ops : List AOp) (X : String), X ∉ depsOf (runOps ops) X) ∧
      "DBO.V" ∈ depsOf (runOps [.addDep "dbo.V" "DBO.V"]) "dbo.V" :=
  ⟨fun ops X => selfFree_of_run ops X, by decide⟩

/-- Claim C10: the `GO` pass of `_normalize_sql` deletes each occurrence of
the substring `GO` (case-insensitive) together with the whitespace run that
follows it, wherever it appears — also in the middle of identifiers, not
only as a standalone batch separator.  Consequently the definitions
`CREATE TABLE dbo.P (Category int)` and `CREATE TABLE dbo.P (Catery int)`,
which differ in genuine identifier text, normalize identically and
`compare_schemas` reports no differences for them. -/
theorem claim_C10_theorem :
    normalize_sql "CREATE TABLE dbo.P (Category int)".toList
        = "CREATE TABLE dbo.P (Catery int)".toList ∧
      compare_schemas "CREATE TABLE dbo.P (Category int)".toList
        "CREATE TABLE dbo.P (Catery int)".toList = .noDifferences ∧
      "CREATE TABLE dbo.P (Category int)".toList
        ≠ "CREATE TABLE dbo.P (Catery int)".toList ∧
      subLitWS ('g' :: 'o' :: []) 6 "AGO  B".toList = "AB".toList ∧
      subLitWS ('g' :: 'o' :: []) 4 "xgOy".toList = "xy".toList := by
  refine ⟨by decide, by decide, by decide, by decide, by decide⟩

/-- Claim C5, counterexample: the two §8 definitions differ only by an SSMS
`Script Date` header block, a `SET ANSI_NULLS ON` line and a `GO` separator
— they normalize identically — yet `generate_migration`, which compares raw
text exactly, places an `Updated` entry for the object in the plan. -/
theorem claim_C5_counterexample :
    normalize_sql ssmsHeaderedDef = normalize_sql plainViewDef ∧
      ssmsHeaderedDef ≠ plainViewDef ∧
      (generate_migration "dbo".toList dbCatHeadered fileCatPlain).updated .Views
        = ["V".toList] :=
  ⟨by decide, by decide, by decide⟩

/-- Claim C5 (amended): for definitions that normalize identically —
e.g. differing only by an SSMS `Script Date` header block, `SET ANSI_NULLS
ON`/`SET QUOTED_IDENTIFIER ON` statements, `GO` separators, blank lines and
whitespace runs — the import tool's `compare_schemas` verdict is
no-differences (`Unchanged`); but the migration planner compares raw
definition text exactly, so an `Updated` entry does appear in its plan for
an object whose two definitions differ only cosmetically. -/
theorem claim_C5_theorem :
    (∀ n e : List Char, e ≠ [] → normalize_sql n = normalize_sql e →
      compare_schemas n e = .noDifferences) ∧
    (∀ (sn : List Char) (dbCat : ObjType → List (List Char × Option (List Char)))
        (fileCat : ObjType → List (List Char × List Char))
        (t : ObjType) (name dv fv : List Char),
      (name, some dv) ∈ dbCat t → fileLookup (fileCat t) name = some fv →
      fv ≠ dv → name ∈ (generate_migration sn dbCat fileCat).updated t) := by
  constructor
  · intro n e he hnorm
    simp [compare_schemas, he, hnorm]
  · intro sn dbCat fileCat t name dv fv hmem hf hne
    show name ∈ (dbCat t).filterMap (updatedEntry (fileCat t))
    rw [List.mem_filterMap]
    exact ⟨(name, some dv), hmem, by simp [updatedEntry, hf, hne]⟩

/-- Claim C5, witness: the amended theorem applied at the §8 definitions and
the singleton catalogs around them. -/
theorem claim_C5_witness :
    (plainViewDef ≠ [] ∧ normalize_sql ssmsHeaderedDef = normalize_sql plainViewDef ∧
      ("V".toList, some ssmsHeaderedDef) ∈ dbCatHeadered .Views ∧
      fileLookup (fileCatPlain .Views) "V".toList = some plainViewDef ∧
      plainViewDef ≠ ssmsHeaderedDef) ∧
    compare_schemas ssmsHeaderedDef plainViewDef = .noDifferences ∧
    "V".toList ∈ (generate_migration "dbo".toList dbCatHeadered fileCatPlain).updated .Views :=
  ⟨⟨by decide, by decide, by decide, by decide, by decide⟩,
    claim_C5_theorem.1 ssmsHeaderedDef plainViewDef (by decide) (by decide),
    claim_C5_theorem.2 "dbo".toList dbCatHeadered fileCatPlain .Views
      "V".toList ssmsHeaderedDef plainViewDef (by decide) (by decide) (by decide)⟩

/-! ## Lemmas about the `generate_migration` diff core -/

/-- One database object contributes nothing to `created`/`updated` iff it
has a file counterpart whose text equals its definition — or its definition
is `NULL` while the file exists. -/
theorem entry_clean_iff (files : List (List Char × List Char))
    (p : List Char × Option (List Char)) :
    (createdEntry files p = none ∧ updatedEntry files p = none) ↔
      ∃ f, fileLookup files p.1 = some f ∧ (p.2 = none ∨ p.2 = some f) := by
  cases hf : fileLookup files p.1 <;> cases hd : p.2
  all_goals simp only [createdEntry, updatedEntry, hf, hd]
  all_goals aesop

/-- A database object contributing to no bucket contributes no SQL. -/
theorem dbSqlEntry_eq_none (t : ObjType) (files : List (List Char × List Char))
    (p : List Char × Option (List Char))
    (h1 : createdEntry files p = none) (h2 : updatedEntry files p = none) :
    dbSqlEntry t files p = none := by
  cases hf : fileLookup files p.1 <;> cases hd : p.2
  · simp [dbSqlEntry, hf, hd]
  · simp [createdEntry, hf, hd] at h1
  · simp [dbSqlEntry, hf, hd]
  · rename_i f d
    by_cases hfd : f = d
    · simp [dbSqlEntry, hf, hd, hfd]
    · simp [updatedEntry, hf, hd, hfd] at h2

/-- Exact-name association lookup under unique keys. -/
theorem assocFind_of_nodup (files : List (List Char × List Char)) (n f : List Char)
    (hnd : (files.map Prod.fst).Nodup) (hmem : (n, f) ∈ files) :
    assocFind files n = some f := by
  induction files with
  | nil => cases hmem
  | cons p rest ih =>
      rcases List.mem_cons.mp hmem with h | h
      · subst h
        simp [assocFind, List.find?]
      · have hne : p.1 ≠ n := by
          intro he
          exact (List.nodup_cons.mp hnd).1
            (he ▸ List.mem_map_of_mem Prod.fst h)
        simp only [assocFind, List.find?, hne, decide_eq_true_eq, if_neg]
        have := ih (List.nodup_cons.mp hnd).2 h
        simpa [assocFind, hne] using this

/-- Per-type bucket emptiness is exactly per-type synchronisation. -/
theorem typeBuckets_iff (db : List (List Char × Option (List Char)))
    (files : List (List Char × List Char)) :
    (db.filterMap (createdEntry files) = [] ∧
      db.filterMap (updatedEntry files) = [] ∧
      files.filterMap (droppedEntry db) = []) ↔ syncedType db files := by
  rw [List.filterMap_eq_nil_iff, List.filterMap_eq_nil_iff, List.filterMap_eq_nil_iff]
  constructor
  · rintro ⟨h1, h2, h3⟩
    refine ⟨fun p hp => (entry_clean_iff files p).mp ⟨h1 p hp, h2 p hp⟩, fun p hp => ?_⟩
    have := h3 p hp
    by_cases hm : memberCI db p.1
    · exact hm
    · simp [droppedEntry, hm] at this
  · rintro ⟨h1, h2⟩
    refine ⟨fun p hp => ?_, fun p hp => ?_, fun p hp => ?_⟩
    · exact ((entry_clean_iff files p).mpr (h1 p hp)).1
    · exact ((entry_clean_iff files p).mpr (h1 p hp)).2
    · simp [droppedEntry, h2 p hp]

/-- Claim C1, counterexample: the desired and actual catalogs hold one view
`V` whose two texts are semantically identical after normalization, yet the
plan is not empty — `generate_migration` compares raw text, so `V` lands in
the `Updated` bucket and a migration file is written. -/
theorem claim_C1_counterexample :
    normalize_sql ssmsHeaderedDef = normalize_sql plainViewDef ∧
      (generate_migration "dbo".toList dbCatHeadered fileCatPlain).updated .Views
        = ["V".toList] ∧
      ¬ (generate_migration "dbo".toList dbCatHeadered fileCatPlain).bucketsEmpty := by
  refine ⟨by decide, by decide, fun h => absurd (h .Views).2.1 (by decide)⟩

/-- Claim C1 (amended): the plan's buckets are all empty exactly when the
catalogs are *byte-identically* synchronised — every database object has a
(case-insensitively matched) file whose text equals the stored definition
exactly (or a `NULL` definition with a file present), and every file name
matches a database object case-insensitively; no normalization is applied.
Empty buckets also mean no SQL is emitted, hence no migration file is
written; and re-running plan generation once the two catalogs are
byte-identical yields an empty plan. -/
theorem claim_C1_theorem :
    (∀ (sn : List Char) (dbCat : ObjType → List (List Char × Option (List Char)))
        (fileCat : ObjType → List (List Char × List Char)),
      ((generate_migration sn dbCat fileCat).bucketsEmpty ↔
        ∀ t, syncedType (dbCat t) (fileCat t))) ∧
    (∀ (sn : List Char) (dbCat : ObjType → List (List Char × Option (List Char)))
        (fileCat : ObjType → List (List Char × List Char)),
      (generate_migration sn dbCat fileCat).bucketsEmpty →
        (generate_migration sn dbCat fileCat).migration_sql = []) ∧
    (∀ (sn : List Char) (files : ObjType → List (List Char × List Char)),
      (∀ t, ((files t).map Prod.fst).Nodup) →
      (generate_migration sn (fun t => dbOfFiles (files t)) files).bucketsEmpty) := by
  have hsync : ∀ (sn : List Char) dbCat fileCat,
      ((generate_migration sn dbCat fileCat).bucketsEmpty ↔
        ∀ t, syncedType (dbCat t) (fileCat t)) := by
    intro sn dbCat fileCat
    constructor
    · intro h t
      exact (typeBuckets_iff (dbCat t) (fileCat t)).mp ⟨(h t).1, (h t).2.1, (h t).2.2⟩
    · intro h t
      have := (typeBuckets_iff (dbCat t) (fileCat t)).mpr (h t)
      exact ⟨this.1, this.2.1, this.2.2⟩
  refine ⟨hsync, ?_, ?_⟩
  · intro sn dbCat fileCat h
    have hs := (hsync sn dbCat fileCat).mp h
    rw [show (generate_migration sn dbCat fileCat).migration_sql
        = objTypeOrder.flatMap (fun t => typeSql sn t (dbCat t) (fileCat t)) from rfl]
    rw [List.flatMap_eq_nil_iff]
    intro t _
    rw [show typeSql sn t (dbCat t) (fileCat t)
        = (dbCat t).filterMap (dbSqlEntry t (fileCat t))
          ++ (fileCat t).filterMap (dropSqlEntry t sn (dbCat t)) from rfl]
    rw [List.append_eq_nil]
    constructor
    · rw [List.filterMap_eq_nil_iff]
      intro p hp
      have hc := (typeBuckets_iff (dbCat t) (fileCat t)).mpr (hs t)
      rw [List.filterMap_eq_nil_iff] at hc
      obtain ⟨hc1, hc2, -⟩ := (typeBuckets_iff (dbCat t) (fileCat t)).mpr (hs t)
      rw [List.filterMap_eq_nil_iff] at hc1 hc2
      exact dbSqlEntry_eq_none t (fileCat t) p (hc1 p hp) (hc2 p hp)
    · rw [List.filterMap_eq_nil_iff]
      intro p hp
      have := (hs t).2 p hp
      simp [dropSqlEntry, this]
  · intro sn files hnd
    rw [hsync]
    intro t
    refine ⟨fun p hp => ?_, fun p hp => ?_⟩
    · rcases List.mem_map.mp hp with ⟨q, hq, hpq⟩
      have hp1 : p.1 = q.1 := by rw [← hpq]
      have hp2 : p.2 = some q.2 := by rw [← hpq]
      refine ⟨q.2, ?_, Or.inr hp2⟩
      have hfind := assocFind_of_nodup (files t) q.1 q.2 (hnd t) hq
      simp [fileLookup, hp1, hfind]
    · rw [memberCI, List.any_eq_true]
      exact ⟨(p.1, some p.2), List.mem_map_of_mem _ hp, by simp⟩

/-- Claim C1, witness: the amended theorem applied at the plain-view file
catalog: once the database catalog is byte-identical to the files, the plan
is empty and no SQL is emitted. -/
theorem claim_C1_witness :
    (∀ t, ((fileCatPlain t).map Prod.fst).Nodup) ∧
      (generate_migration "dbo".toList
        (fun t => dbOfFiles (fileCatPlain t)) fileCatPlain).bucketsEmpty ∧
      (generate_migration "dbo".toList
        (fun t => dbOfFiles (fileCatPlain t)) fileCatPlain).migration_sql = [] := by
  have h0 : ∀ t, ((fileCatPlain t).map Prod.fst).Nodup := by
    intro t; cases t <;> simp [fileCatPlain]
  have h1 := claim_C1_theorem.2.2 "dbo".toList fileCatPlain h0
  exact ⟨h0, h1, claim_C1_theorem.2.1 "dbo".toList _ fileCatPlain h1⟩

/-- Claim C9, counterexample: a stored procedure `P` exists in the database
catalog with a `NULL` definition *and* has a file counterpart.  The claim
requires every absent-definition object to be reported in the
Created/Updated summary with the sentinel marker, but `generate_migration`
skips this object entirely — every bucket stays empty (only a log line is
printed) and no SQL is emitted. -/
theorem claim_C9_counterexample :
    ("P".toList, none) ∈ dbCatNullDef .StoredProcedures ∧
      (generate_migration "dbo".toList dbCatNullDef fileCatP).created .StoredProcedures = [] ∧
      (generate_migration "dbo".toList dbCatNullDef fileCatP).updated .StoredProcedures = [] ∧
      (generate_migration "dbo".toList dbCatNullDef fileCatP).dropped .StoredProcedures = [] ∧
      (generate_migration "dbo".toList dbCatNullDef fileCatP).migration_sql = [] :=
  ⟨by decide, by decide, by decide, by decide, by decide⟩

/-- Claim C9 (amended): a `NULL`-definition database object with *no*
matching file is reported in the `Created` bucket with the
`" (definition unavailable)"` sentinel; a `NULL`-definition object that
*has* a matching file is skipped from the summary entirely (it contributes
to neither `created` nor `updated`); and a `NULL` definition never
contributes SQL, so plan generation never fails on one. -/
theorem claim_C9_theorem :
    (∀ (t : ObjType) (files : List (List Char × List Char)) (name : List Char),
      dbSqlEntry t files (name, none) = none) ∧
    (∀ (sn : List Char) (dbCat : ObjType → List (List Char × Option (List Char)))
        (fileCat : ObjType → List (List Char × List Char)) (t : ObjType)
        (name : List Char),
      (name, none) ∈ dbCat t → fileLookup (fileCat t) name = none →
      (name ++ unavailableSuffix) ∈ (generate_migration sn dbCat fileCat).created t) ∧
    (∀ (files : List (List Char × List Char)) (name f : List Char),
      fileLookup files name = some f →
      createdEntry files (name, none) = none ∧ updatedEntry files (name, none) = none) := by
  refine ⟨?_, ?_, ?_⟩
  · intro t files name
    cases hf : fileLookup files name <;> simp [dbSqlEntry, hf]
  · intro sn dbCat fileCat t name hmem hf
    show (name ++ unavailableSuffix) ∈ (dbCat t).filterMap (createdEntry (fileCat t))
    rw [List.mem_filterMap]
    exact ⟨(name, none), hmem, by simp [createdEntry, hf]⟩
  · intro files name f hf
    exact ⟨by simp [createdEntry, hf], by simp [updatedEntry, hf]⟩

/-- Claim C9, witness: the amended theorem applied at the `NULL`-definition
catalogs: with no file, the sentinel entry appears in `created`; with a
file, the object contributes nothing. -/
theorem claim_C9_witness :
    (("P".toList, (none : Option (List Char))) ∈ dbCatNullDef .StoredProcedures ∧
      fileLookup (dbCatEmpty .StoredProcedures |>.map (fun p => (p.1, []))) "P".toList = none ∧
      fileLookup (fileCatP .StoredProcedures) "P".toList
        = some "CREATE PROCEDURE dbo.P AS SELECT 1".toList) ∧
    dbSqlEntry .StoredProcedures (fileCatP .StoredProcedures) ("P".toList, none) = none ∧
    ("P".toList ++ unavailableSuffix)
      ∈ (generate_migration "dbo".toList dbCatNullDef (fun _ => [])).created .StoredProcedures ∧
    (createdEntry (fileCatP .StoredProcedures) ("P".toList, none) = none ∧
      updatedEntry (fileCatP .StoredProcedures) ("P".toList, none) = none) :=
  ⟨⟨by decide, by decide, by decide⟩,
    claim_C9_theorem.1 .StoredProcedures (fileCatP .StoredProcedures) "P".toList,
    claim_C9_theorem.2.1 "dbo".toList dbCatNullDef (fun _ => []) .StoredProcedures
      "P".toList (by decide) (by decide),
    claim_C9_theorem.2.2 (fileCatP .StoredProcedures) "P".toList
      "CREATE PROCEDURE dbo.P AS SELECT 1".toList (by decide)⟩

/-! ## Lemmas about the shape and order of `migration_sql` chunks -/

/-- Lists differing at one position differ. -/
theorem ne_of_getElemOpt {l1 l2 : List α} (i : Nat) (h : l1[i]? ≠ l2[i]?) :
    l1 ≠ l2 := fun he => h (he ▸ rfl)

/-- `appearsBefore` across a concatenation. -/
theorem appearsBefore_of_mem_parts {x y : α} (l1 l2 : List α)
    (hx : x ∈ l1) (hy : y ∈ l2) : appearsBefore (l1 ++ l2) x y := by
  obtain ⟨i, hi, hxi⟩ := List.mem_iff_getElem.mp hx
  obtain ⟨j, hj, hyj⟩ := List.mem_iff_getElem.mp hy
  have hi' : i < (l1 ++ l2).length := by rw [List.length_append]; omega
  have hj' : l1.length + j < (l1 ++ l2).length := by rw [List.length_append]; omega
  refine ⟨⟨i, hi'⟩, ⟨l1.length + j, hj'⟩, ?_, ?_, ?_⟩
  · show i < l1.length + j
    omega
  · rw [List.get_eq_getElem]
    rw [List.getElem_append_left hi]
    exact hxi
  · rw [List.get_eq_getElem]
    rw [List.getElem_append_right (by omega : l1.length ≤ l1.length + j)]
    simpa using hyj

/-- Every chunk of one type's SQL segment is a create, update or drop chunk
of that type. -/
theorem typeSql_shape (sn : List Char) (t : ObjType)
    (db : List (List Char × Option (List Char)))
    (files : List (List Char × List Char)) (x : List Char)
    (hx : x ∈ typeSql sn t db files) :
    (∃ n d, x = createSqlChunk t n d) ∨ (∃ n ddl, x = updateSqlChunk t n ddl) ∨
      (∃ n, x = dropSqlChunk t sn n) := by
  rcases List.mem_append.mp hx with h | h
  · rcases List.mem_filterMap.mp h with ⟨p, -, hp⟩
    cases hf : fileLookup files p.1 <;> cases hd : p.2 <;>
      simp only [dbSqlEntry, hf, hd] at hp
    · exact absurd hp (by simp)
    · exact Or.inl ⟨p.1, _, (Option.some_inj.mp hp).symm⟩
    · exact absurd hp (by simp)
    · rename_i f d
      by_cases hfd : f = d
      · rw [if_pos hfd] at hp
        exact absurd hp (by simp)
      · rw [if_neg hfd] at hp
        exact Or.inr (Or.inl ⟨p.1, _, (Option.some_inj.mp hp).symm⟩)
  · rcases List.mem_filterMap.mp h with ⟨p, -, hp⟩
    by_cases hm : memberCI db p.1
    · simp [dropSqlEntry, hm] at hp
    · rw [dropSqlEntry, if_neg (by simpa using hm)] at hp
      exact Or.inr (Or.inr ⟨p.1, (Option.some_inj.mp hp).symm⟩)

theorem dropChunk_head (t : ObjType) (sn n : List Char) :
    (dropSqlChunk t sn n)[0]? = some 'D' := by cases t <;> rfl

theorem createChunk_head (t : ObjType) (n d : List Char) :
    (createSqlChunk t n d)[0]? = some '-' := by cases t <;> rfl

theorem updateChunk_head (t : ObjType) (n d : List Char) :
    (updateSqlChunk t n d)[0]? = some '-' := by cases t <;> rfl

theorem dropChunk_five (t : ObjType) (sn n : List Char) :
    (dropSqlChunk t sn n)[5]? = some (match t with
      | .Tables => 'T' | .Views => 'V' | .StoredProcedures => 'P'
      | .Functions => 'F' | .Triggers => 'T') := by cases t <;> rfl

theorem dropChunk_six_tables (sn n : List Char) :
    (dropSqlChunk .Tables sn n)[6]? = some 'A' := rfl

theorem dropChunk_six_triggers (sn n : List Char) :
    (dropSqlChunk .Triggers sn n)[6]? = some 'R' := rfl

/-- A table drop statement is distinct from every chunk of a non-`Tables`
segment (the literal prefixes differ). -/
theorem tableDrop_ne_other (sn tn : List Char) (t : ObjType) (ht : t ≠ .Tables)
    (sn' n d : List Char) :
    dropSqlChunk .Tables sn tn ≠ createSqlChunk t n d ∧
      dropSqlChunk .Tables sn tn ≠ updateSqlChunk t n d ∧
      dropSqlChunk .Tables sn tn ≠ dropSqlChunk t sn' n := by
  cases t
  case Tables => exact absurd rfl ht
  case Triggers =>
    exact ⟨ne_of_getElemOpt 0 (by rw [dropChunk_head, createChunk_head]; decide),
      ne_of_getElemOpt 0 (by rw [dropChunk_head, updateChunk_head]; decide),
      ne_of_getElemOpt 6 (by rw [dropChunk_six_tables, dropChunk_six_triggers]; decide)⟩
  all_goals
    exact ⟨ne_of_getElemOpt 0 (by rw [dropChunk_head, createChunk_head]; decide),
      ne_of_getElemOpt 0 (by rw [dropChunk_head, updateChunk_head]; decide),
      ne_of_getElemOpt 5 (by rw [dropChunk_five, dropChunk_five]; decide)⟩

/-- A view drop statement is distinct from every chunk of the `Tables`
segment. -/
theorem viewDrop_ne_tables (sn vn : List Char) (sn' n d : List Char) :
    dropSqlChunk .Views sn vn ≠ createSqlChunk .Tables n d ∧
      dropSqlChunk .Views sn vn ≠ updateSqlChunk .Tables n d ∧
      dropSqlChunk .Views sn vn ≠ dropSqlChunk .Tables sn' n :=
  ⟨ne_of_getElemOpt 0 (by rw [dropChunk_head, createChunk_head]; decide),
    ne_of_getElemOpt 0 (by rw [dropChunk_head, updateChunk_head]; decide),
    ne_of_getElemOpt 5 (by rw [dropChunk_five, dropChunk_five]; decide)⟩

/-- Claim C4, counterexample: the actual catalog contains a view `dbo.V`
whose text references `dbo.T` and a table `dbo.T`, both absent from the
desired catalog — yet the emitted SQL lists `DROP TABLE [dbo].[T]` *before*
`DROP VIEW [dbo].[V]`: drops are grouped by object type in the fixed
`OBJECT_QUERIES` order (Tables first), with no dependency analysis. -/
theorem claim_C4_counterexample :
    (generate_migration "dbo".toList dbCatEmpty fileCatTV).migration_sql
        = [dropSqlChunk .Tables "dbo".toList "T".toList,
           dropSqlChunk .Views "dbo".toList "V".toList] ∧
      ¬ appearsBefore (generate_migration "dbo".toList dbCatEmpty fileCatTV).migration_sql
          (dropSqlChunk .Views "dbo".toList "V".toList)
          (dropSqlChunk .Tables "dbo".toList "T".toList) :=
  ⟨by decide, by decide⟩

/-- Claim C4 (amended): dropped objects are emitted grouped by object kind
in the fixed `OBJECT_QUERIES` order — Tables, Views, StoredProcedures,
Functions, Triggers — with no dependency analysis, so whenever both a table
drop and a view drop appear in the migration SQL, the `DROP TABLE` statement
appears before the `DROP VIEW` statement (the reverse of the claimed
dependents-first order). -/
theorem claim_C4_theorem (sn : List Char)
    (dbCat : ObjType → List (List Char × Option (List Char)))
    (fileCat : ObjType → List (List Char × List Char)) (tn vn : List Char)
    (hT : dropSqlChunk .Tables sn tn
      ∈ (generate_migration sn dbCat fileCat).migration_sql)
    (hV : dropSqlChunk .Views sn vn
      ∈ (generate_migration sn dbCat fileCat).migration_sql) :
    appearsBefore (generate_migration sn dbCat fileCat).migration_sql
      (dropSqlChunk .Tables sn tn) (dropSqlChunk .Views sn vn) := by
  have hsql : (generate_migration sn dbCat fileCat).migration_sql
      = typeSql sn .Tables (dbCat .Tables) (fileCat .Tables)
        ++ (typeSql sn .Views (dbCat .Views) (fileCat .Views)
        ++ (typeSql sn .StoredProcedures (dbCat .StoredProcedures)
              (fileCat .StoredProcedures)
        ++ (typeSql sn .Functions (dbCat .Functions) (fileCat .Functions)
        ++ (typeSql sn .Triggers (dbCat .Triggers) (fileCat .Triggers)
        ++ [])))) := rfl
  rw [hsql] at hT hV ⊢
  have hnotT : ∀ t, t ≠ .Tables →
      dropSqlChunk .Tables sn tn ∉ typeSql sn t (dbCat t) (fileCat t) := by
    intro t ht hmem
    rcases typeSql_shape sn t _ _ _ hmem with ⟨n, d, he⟩ | ⟨n, d, he⟩ | ⟨n, he⟩
    · exact (tableDrop_ne_other sn tn t ht sn n d).1 he
    · exact (tableDrop_ne_other sn tn t ht sn n d).2.1 he
    · exact (tableDrop_ne_other sn tn t ht sn n n).2.2 he
  have hT1 : dropSqlChunk .Tables sn tn
      ∈ typeSql sn .Tables (dbCat .Tables) (fileCat .Tables) := by
    rcases List.mem_append.mp hT with h | h
    · exact h
    exfalso
    rcases List.mem_append.mp h with h | h
    · exact hnotT .Views (by decide) h
    rcases List.mem_append.mp h with h | h
    · exact hnotT .StoredProcedures (by decide) h
    rcases List.mem_append.mp h with h | h
    · exact hnotT .Functions (by decide) h
    rcases List.mem_append.mp h with h | h
    · exact hnotT .Triggers (by decide) h
    · cases h
  have hV2 : dropSqlChunk .Views sn vn
      ∈ (typeSql sn .Views (dbCat .Views) (fileCat .Views)
        ++ (typeSql sn .StoredProcedures (dbCat .StoredProcedures)
              (fileCat .StoredProcedures)
        ++ (typeSql sn .Functions (dbCat .Functions) (fileCat .Functions)
        ++ (typeSql sn .Triggers (dbCat .Triggers) (fileCat .Triggers)
        ++ [])))) := by
    rcases List.mem_append.mp hV with h | h
    · exfalso
      rcases typeSql_shape sn .Tables _ _ _ h with ⟨n, d, he⟩ | ⟨n, d, he⟩ | ⟨n, he⟩
      · exact (viewDrop_ne_tables sn vn sn n d).1 he
      · exact (viewDrop_ne_tables sn vn sn n d).2.1 he
      · exact (viewDrop_ne_tables sn vn sn n n).2.2 he
    · exact h
  exact appearsBefore_of_mem_parts _ _ hT1 hV2

/-- Claim C4, witness: the amended theorem at the concrete two-object
catalogs — the table drop appears before the view drop. -/
theorem claim_C4_witness :
    (dropSqlChunk .Tables "dbo".toList "T".toList
        ∈ (generate_migration "dbo".toList dbCatEmpty fileCatTV).migration_sql ∧
      dropSqlChunk .Views "dbo".toList "V".toList
        ∈ (generate_migration "dbo".toList dbCatEmpty fileCatTV).migration_sql) ∧
    appearsBefore (generate_migration "dbo".toList dbCatEmpty fileCatTV).migration_sql
      (dropSqlChunk .Tables "dbo".toList "T".toList)
      (dropSqlChunk .Views "dbo".toList "V".toList) :=
  ⟨⟨by decide, by decide⟩,
    claim_C4_theorem "dbo".toList dbCatEmpty fileCatTV "T".toList "V".toList
      (by decide) (by decide)⟩

/-! ## Lemmas about `_definition_for_update` -/

/-- Characterization of `_definition_for_update` for the view kind (the
three other non-table kinds share the same branch definitionally): the
output is the spec-style first-matching-line rewrite, except that a leading
BOM immediately followed by a matching header is consumed and dropped. -/
theorem dfu_views_eq (d : List Char) :
    definition_for_update .Views d =
      (match bomHeader d with
       | some g => alterRewrite g
       | none => specHeaderRewrite d) := by
  cases d with
  | nil => rfl
  | cons c rest =>
      by_cases hb : c = Char.ofNat 0xFEFF
      · subst hb
        cases hpc : parseCreateHeader rest with
        | some g => simp [definition_for_update, bomHeader, hpc]
        | none => simp [definition_for_update, bomHeader, hpc, specHeaderRewrite]
      · simp only [definition_for_update, bomHeader, if_neg hb]
        cases hpc : parseCreateHeader (c :: rest) with
        | some g =>
            have hscan : headerLineScan (rest.length + 1 + 1) (c :: rest)
                = some ([], g) := by
              simp only [headerLineScan, hpc]
            simp [specHeaderRewrite, hscan, hpc]
        | none => simp [specHeaderRewrite, hpc]

/-- Claim C8, counterexample: a definition starting with a byte-order mark
followed by a `CREATE VIEW` header.  Per the claim's own per-line pattern
`^\s*CREATE...` no header line matches (the BOM is not whitespace), so the
claim predicts the definition is returned unchanged — but the code's
start-anchored pattern `^﻿?(\s*)create...` matches, rewrites the header
*and silently drops the BOM*. -/
theorem claim_C8_counterexample :
    headerLineScan ((Char.ofNat 0xFEFF :: "CREATE VIEW v AS SELECT 1".toList).length + 1)
        (Char.ofNat 0xFEFF :: "CREATE VIEW v AS SELECT 1".toList) = none ∧
      definition_for_update .Views
          (Char.ofNat 0xFEFF :: "CREATE VIEW v AS SELECT 1".toList)
        = "ALTER VIEW v AS SELECT 1".toList ∧
      definition_for_update .Views
          (Char.ofNat 0xFEFF :: "CREATE VIEW v AS SELECT 1".toList)
        ≠ Char.ofNat 0xFEFF :: "CREATE VIEW v AS SELECT 1".toList :=
  ⟨by decide, by decide, by decide⟩

/-- Claim C8 (amended): for View/Function/StoredProcedure/Trigger kinds the
update DDL is the desired definition with the first line matching
`^\s*CREATE(\s+OR\s+ALTER)?\s+(VIEW|PROCEDURE|FUNCTION|TRIGGER)\b`
(case-insensitive) rewritten so the `CREATE [OR ALTER]` token becomes
`ALTER`, preserving surrounding whitespace and the object-type token, and
returned unchanged when no such line exists — except that a leading
byte-order mark immediately followed by a matching header is consumed and
dropped together with the rewrite.  For the Table kind the definition is
always returned unchanged. -/
theorem claim_C8_theorem :
    (∀ d : List Char, definition_for_update .Tables d = d) ∧
    (∀ (t : ObjType), t ≠ .Tables → ∀ d : List Char,
      definition_for_update t d =
        (match bomHeader d with
         | some g => alterRewrite g
         | none => specHeaderRewrite d)) := by
  refine ⟨fun d => rfl, fun t ht d => ?_⟩
  cases t
  case Tables => exact absurd rfl ht
  all_goals exact dfu_views_eq d

/-- Claim C8, witness: the amended theorem applied to a plain
`CREATE VIEW` definition (no BOM: the spec-style line rewrite applies) for
the view kind. -/
theorem claim_C8_witness :
    (ObjType.Views ≠ ObjType.Tables) ∧
      definition_for_update .Views "CREATE VIEW v AS SELECT 1".toList =
        (match bomHeader "CREATE VIEW v AS SELECT 1".toList with
         | some g => alterRewrite g
         | none => specHeaderRewrite "CREATE VIEW v AS SELECT 1".toList) :=
  ⟨by decide, claim_C8_theorem.2 .Views (by decide) "CREATE VIEW v AS SELECT 1".toList⟩

/-! ## Well-formedness of reachable analyzer states -/

theorem map_fst_upsert (m : List (String × String)) (k v : String) :
    (upsert m k v).map Prod.fst =
      (if k ∈ m.map Prod.fst then m.map Prod.fst else m.map Prod.fst ++ [k]) := by
  induction m with
  | nil => simp [upsert]
  | cons p rest ih =>
      by_cases hk : p.1 = k
      · simp [upsert, hk]
      · obtain ⟨k', v'⟩ := p
        simp only at hk
        simp only [upsert, if_neg hk, List.map_cons, ih]
        by_cases hm : k ∈ rest.map Prod.fst <;>
          simp [hm, Ne.symm hk]

theorem lookupSet_nil (k : String) : lookupSet [] k = [] := rfl

theorem wf_runOps (ops : List AOp) : AnalyzerWF (runOps ops) := by
  suffices h : ∀ (l : List AOp) (s : Analyzer), AnalyzerWF s →
      AnalyzerWF (l.foldl (fun s op =>
        match op with
        | .addObj n t => add_object s n t
        | .addDep a b => add_dependency s a b) s) by
    refine h ops Analyzer.init ?_
    exact ⟨by simp [objKeys, Analyzer.init], fun n => by simp [depsOf, Analyzer.init, lookupSet],
      fun n => by simp [dependentsOf, Analyzer.init, lookupSet],
      fun a b => by simp [depsOf, dependentsOf, Analyzer.init, lookupSet]⟩
  intro l
  induction l with
  | nil => intro s hs; simpa using hs
  | cons op rest ih =>
      intro s hs
      refine ih _ ?_
      match op with
      | .addObj n t =>
          refine ⟨?_, hs.depsNodup, hs.dependentsNodup, hs.transpose⟩
          show ((upsert s.object_types n t).map Prod.fst).Nodup
          rw [map_fst_upsert]
          by_cases hm : n ∈ s.object_types.map Prod.fst
          · simpa [hm] using hs.keysNodup
          · rw [if_neg hm, List.nodup_append]
            exact ⟨hs.keysNodup, List.nodup_singleton n,
              by simpa [List.disjoint_singleton] using hm⟩
      | .addDep a b =>
          by_cases hab : b ≠ a
          · simp only [add_dependency, if_pos hab]
            refine ⟨hs.keysNodup, ?_, ?_, ?_⟩
            · intro n
              show (lookupSet (addToSet s.dependencies a b) n).Nodup
              by_cases hn : n = a
              · subst hn
                rw [lookupSet_addToSet_self]
                by_cases hb : b ∈ lookupSet s.dependencies n
                · simpa [hb] using hs.depsNodup n
                · rw [if_neg hb, List.nodup_append]
                  exact ⟨hs.depsNodup n, List.nodup_singleton b,
                    by simpa [List.disjoint_singleton] using hb⟩
              · rw [lookupSet_addToSet_other _ _ _ _ hn]
                exact hs.depsNodup n
            · intro n
              show (lookupSet (addToSet s.dependents b a) n).Nodup
              by_cases hn : n = b
              · subst hn
                rw [lookupSet_addToSet_self]
                by_cases ha : a ∈ lookupSet s.dependents n
                · simpa [ha] using hs.dependentsNodup n
                · rw [if_neg ha, List.nodup_append]
                  exact ⟨hs.dependentsNodup n, List.nodup_singleton a,
                    by simpa [List.disjoint_singleton] using ha⟩
              · rw [lookupSet_addToSet_other _ _ _ _ hn]
                exact hs.dependentsNodup n
            · intro x y
              show x ∈ lookupSet (addToSet s.dependencies a b) y ↔
                y ∈ lookupSet (addToSet s.dependents b a) x
              rw [mem_lookupSet_addToSet, mem_lookupSet_addToSet]
              constructor
              · rintro (h | ⟨h1, h2⟩)
                · exact Or.inl ((hs.transpose x y).mp h)
                · exact Or.inr ⟨h2, h1⟩
              · rintro (h | ⟨h1, h2⟩)
                · exact Or.inl ((hs.transpose x y).mpr h)
                · exact Or.inr ⟨h2, h1⟩
          · simpa [add_dependency, hab] using hs

/-! ## The Kahn loop invariant -/

theorem processDeps_fst (inDeg : String → Int) (ds : List String) (hnd : ds.Nodup)
    (x : String) :
    (processDeps inDeg ds).1 x = inDeg x - (if x ∈ ds then 1 else 0) := by
  induction ds generalizing inDeg with
  | nil => simp [processDeps]
  | cons d rest ih =>
      have hDn := (List.nodup_cons.mp hnd).1
      have hRn := (List.nodup_cons.mp hnd).2
      simp only [processDeps]
      rw [ih _ hRn]
      by_cases hx : x = d
      · subst hx
        simp [hDn]
      · by_cases hr : x ∈ rest <;> simp [hx, hr]

theorem processDeps_snd (inDeg : String → Int) (ds : List String) (hnd : ds.Nodup) :
    (processDeps inDeg ds).2 = ds.filter (fun d => inDeg d = 1) := by
  induction ds generalizing inDeg with
  | nil => simp [processDeps]
  | cons d rest ih =>
      have hDn := (List.nodup_cons.mp hnd).1
      have hRn := (List.nodup_cons.mp hnd).2
      simp only [processDeps]
      rw [ih _ hRn]
      have hfe : rest.filter
            (fun x => (if x = d then inDeg d - 1 else inDeg x) = 1)
          = rest.filter (fun x => inDeg x = 1) := by
        apply List.filter_congr
        intro x hx
        have : x ≠ d := fun he => hDn (he ▸ hx)
        simp [this]
      rw [hfe]
      by_cases h1 : inDeg d = 1
      · have : inDeg d - 1 = 0 := by omega
        simp [List.filter_cons, h1, this]
      · have : ¬ (inDeg d - 1 = 0) := by omega
        simp [List.filter_cons, h1, this]

/-- A duplicate-free list whose members saturate a filter count is contained
in the filtering list. -/
theorem subset_of_filter_count (R L : List String) (hR : R.Nodup)
    (hlen : (R.filter (fun x => x ∈ L)).length = L.length) : L ⊆ R := by
  have hFn : (R.filter (fun x => x ∈ L)).Nodup := hR.filter _
  have hFs : (R.filter (fun x => x ∈ L)) ⊆ L := by
    intro x hx
    have := List.of_mem_filter hx
    simpa using this
  have hsp := hFn.subperm hFs
  have hperm := hsp.perm_of_length_le (le_of_eq hlen.symm)
  intro x hx
  have : x ∈ R.filter (fun y => y ∈ L) := hperm.mem_iff.mpr hx
  exact List.mem_of_mem_filter this

/-- Splitting a decomposition of `l ++ [a]`. -/
theorem snoc_decomp {l : List α} {a : α} {l₁ : List α} {x : α} {l₂ : List α}
    (h : l ++ [a] = l₁ ++ x :: l₂) :
    (l₂ = [] ∧ l₁ = l ∧ x = a) ∨ ∃ l₂', l₂ = l₂' ++ [a] ∧ l = l₁ ++ x :: l₂' := by
  rcases List.eq_nil_or_concat l₂ with h2 | ⟨l₂', a', h2⟩
  · subst h2
    have hinj := List.append_inj' h (by simp)
    have hx : a = x := by
      have := hinj.2
      injection this
    exact Or.inl ⟨rfl, hinj.1.symm, hx.symm⟩
  · subst h2
    have h' : l ++ [a] = (l₁ ++ x :: l₂') ++ [a'] := by
      rw [h]; simp [List.concat_eq_append]
    have hinj := List.append_inj' h' (by simp)
    have ha : a = a' := by
      have := hinj.2
      injection this
    exact Or.inr ⟨l₂', by rw [List.concat_eq_append, ha], hinj.1⟩

/-- One iteration of the Kahn loop preserves the invariant. -/
theorem kahnInv_step {s : Analyzer} (wf : AnalyzerWF s) (inDeg : String → Int)
    (obj : String) (rest r : List String)
    (h : KahnInv s inDeg (obj :: rest) r) :
    KahnInv s (processDeps inDeg (dependentsOf s obj)).1
      (rest ++ (processDeps inDeg (dependentsOf s obj)).2) (r ++ [obj]) := by
  have hdn := wf.dependentsNodup obj
  have hfst := fun x => processDeps_fst inDeg (dependentsOf s obj) hdn x
  have hsnd := processDeps_snd inDeg (dependentsOf s obj) hdn
  have hnew : ∀ n ∈ (processDeps inDeg (dependentsOf s obj)).2,
      inDeg n = 1 ∧ n ∈ dependentsOf s obj := by
    intro n hn
    rw [hsnd] at hn
    exact ⟨by simpa using List.of_mem_filter hn, List.mem_of_mem_filter hn⟩
  have hfresh : ∀ n ∈ (processDeps inDeg (dependentsOf s obj)).2,
      n ∉ r ++ obj :: rest := by
    intro n hn hmem
    have h1 := (hnew n hn).1
    have h2 := h.nonpos n hmem
    omega
  have hacct' : ∀ n, (processDeps inDeg (dependentsOf s obj)).1 n = initDeg s n
      - (((r ++ [obj]).filter (fun x => x ∈ depsOf s n)).length : Int) := by
    intro n
    rw [hfst n, h.acct n, List.filter_append]
    have htr : n ∈ dependentsOf s obj ↔ obj ∈ depsOf s n := (wf.transpose obj n).symm
    by_cases hd : obj ∈ depsOf s n
    · rw [if_pos (htr.mpr hd)]
      simp [List.filter_cons, hd]
      try omega
    · rw [if_neg (fun hc => hd (htr.mp hc))]
      simp [List.filter_cons, hd]
      try omega
  have hnewK : ∀ n ∈ (processDeps inDeg (dependentsOf s obj)).2, n ∈ objKeys s := by
    intro n hn
    by_contra hK
    have h1 := (hnew n hn).1
    have ha := h.acct n
    rw [initDeg, if_neg hK] at ha
    have : (0 : Int) ≤ ((r.filter (fun x => x ∈ depsOf s n)).length : Int) := by
      positivity
    omega
  have hsubl : (r ++ [obj]).Sublist (r ++ obj :: rest) := by
    apply List.Sublist.append_left
    exact (List.nil_sublist rest).cons₂ obj
  refine ⟨?_, ?_, hacct', ?_, ?_, ?_⟩
  · have hAssoc : r ++ [obj] ++ (rest ++ (processDeps inDeg (dependentsOf s obj)).2)
        = (r ++ obj :: rest) ++ (processDeps inDeg (dependentsOf s obj)).2 := by
      simp
    rw [hAssoc, List.nodup_append]
    refine ⟨h.nodup, ?_, ?_⟩
    · rw [hsnd]
      exact hdn.filter _
    · intro x hx hx'
      exact hfresh x hx' hx
  · intro x hx
    rw [List.mem_append] at hx
    rcases hx with hx | hx
    · rcases List.mem_append.mp hx with hx | hx
      · exact h.subK x (List.mem_append_left _ hx)
      · have hxo : x = obj := by simpa using hx
        refine h.subK x (List.mem_append_right _ ?_)
        rw [hxo]
        exact List.mem_cons_self obj rest
    · rcases List.mem_append.mp hx with hx | hx
      · exact h.subK x (List.mem_append_right _ (List.mem_cons_of_mem _ hx))
      · exact hnewK x hx
  · intro r₁ x r₂ hdec d hd
    rcases snoc_decomp hdec with ⟨-, h1, hx⟩ | ⟨l₂', -, h1⟩
    · subst h1
      refine h.queueReady x ?_ d hd
      rw [hx]
      exact List.mem_cons_self obj rest
    · exact h.ordered r₁ x l₂' h1 d hd
  · intro n hn d hd
    rcases List.mem_append.mp hn with hn | hn
    · exact List.mem_append_left _
        (h.queueReady n (List.mem_cons_of_mem _ hn) d hd)
    · have h1 := (hnew n hn).1
      have h2 := (hnew n hn).2
      have hK := hnewK n hn
      have h0 : (processDeps inDeg (dependentsOf s obj)).1 n = 0 := by
        rw [hfst n, if_pos h2]
        omega
      have ha := hacct' n
      rw [h0, initDeg, if_pos hK] at ha
      have hlen : ((r ++ [obj]).filter (fun x => x ∈ depsOf s n)).length
          = (depsOf s n).length := by omega
      have hRn : (r ++ [obj]).Nodup := hsubl.nodup h.nodup
      exact subset_of_filter_count (r ++ [obj]) (depsOf s n) hRn hlen hd
  · intro n hn
    have hmono : (processDeps inDeg (dependentsOf s obj)).1 n ≤ inDeg n := by
      rw [hfst n]
      split <;> omega
    rcases List.mem_append.mp hn with hn | hn
    · rcases List.mem_append.mp hn with hn | hn
      · exact le_trans hmono (h.nonpos n (List.mem_append_left _ hn))
      · have hno : n = obj := by simpa using hn
        refine le_trans hmono (h.nonpos n (List.mem_append_right _ ?_))
        rw [hno]
        exact List.mem_cons_self obj rest
    · rcases List.mem_append.mp hn with hn | hn
      · exact le_trans hmono
          (h.nonpos n (List.mem_append_right _ (List.mem_cons_of_mem _ hn)))
      · have h1 := (hnew n hn).1
        have h2 := (hnew n hn).2
        rw [hfst n, if_pos h2]
        omega

/-- The Kahn loop, run with fuel at least the number of registered keys not
yet emitted, drains its queue (the Python `while queue` loop terminates) and
returns a duplicate-free sequence of registered keys whose every element is
preceded by its dependencies, with the initial result and queue as prefix. -/
theorem kahnLoop_spec {s : Analyzer} (wf : AnalyzerWF s) :
    ∀ (fuel : Nat) (inDeg : String → Int) (q r : List String),
      KahnInv s inDeg q r → (objKeys s).length + 1 ≤ fuel + r.length →
      (kahnLoop s fuel inDeg q r).2 = [] ∧
      (kahnLoop s fuel inDeg q r).1.Nodup ∧
      (∀ x, x ∈ (kahnLoop s fuel inDeg q r).1 → x ∈ objKeys s) ∧
      (∀ r₁ x r₂, (kahnLoop s fuel inDeg q r).1 = r₁ ++ x :: r₂ →
        ∀ d, d ∈ depsOf s x → d ∈ r₁) ∧
      (kahnLoop s fuel inDeg q r).1.take (r.length + q.length) = r ++ q := by
  intro fuel
  induction fuel with
  | zero =>
      intro inDeg q r hInv hfuel
      exfalso
      have hsub : r ⊆ objKeys s := fun x hx => hInv.subK x (List.mem_append_left _ hx)
      have hnd : r.Nodup := hInv.nodup.of_append_left
      have := (hnd.subperm hsub).length_le
      omega
  | succ fuel ih =>
      intro inDeg q r hInv hfuel
      cases q with
      | nil =>
          have heq : kahnLoop s (fuel + 1) inDeg [] r = (r, []) := rfl
          rw [heq]
          refine ⟨rfl, by simpa using hInv.nodup, ?_, hInv.ordered, ?_⟩
          · intro x hx
            exact hInv.subK x (List.mem_append_left _ hx)
          · simp
      | cons obj rest =>
          have hstep := kahnInv_step wf inDeg obj rest r hInv
          have heq : kahnLoop s (fuel + 1) inDeg (obj :: rest) r
              = kahnLoop s fuel (processDeps inDeg (dependentsOf s obj)).1
                  (rest ++ (processDeps inDeg (dependentsOf s obj)).2) (r ++ [obj]) := rfl
          have hfuel' : (objKeys s).length + 1
              ≤ fuel + (r ++ [obj]).length := by
            simp only [List.length_append, List.length_cons, List.length_nil]
            omega
          obtain ⟨h1, h2, h3, h4, h5⟩ := ih _ _ _ hstep hfuel'
          rw [heq]
          refine ⟨h1, h2, h3, h4, ?_⟩
          have hle : r.length + (obj :: rest).length
              ≤ (r ++ [obj]).length
                + (rest ++ (processDeps inDeg (dependentsOf s obj)).2).length := by
            simp
            omega
          calc (kahnLoop s fuel (processDeps inDeg (dependentsOf s obj)).1
                  (rest ++ (processDeps inDeg (dependentsOf s obj)).2)
                  (r ++ [obj])).1.take (r.length + (obj :: rest).length)
              = ((kahnLoop s fuel (processDeps inDeg (dependentsOf s obj)).1
                  (rest ++ (processDeps inDeg (dependentsOf s obj)).2)
                  (r ++ [obj])).1.take
                    ((r ++ [obj]).length
                      + (rest ++ (processDeps inDeg (dependentsOf s obj)).2).length)).take
                  (r.length + (obj :: rest).length) := by
                rw [List.take_take, min_eq_left hle]
            _ = ((r ++ [obj]) ++ (rest ++ (processDeps inDeg (dependentsOf s obj)).2)).take
                  (r.length + (obj :: rest).length) := by rw [h5]
            _ = ((r ++ obj :: rest)
                  ++ (processDeps inDeg (dependentsOf s obj)).2).take
                  (r.length + (obj :: rest).length) := by
                congr 1
                simp
            _ = r ++ obj :: rest := by
                refine List.take_left' ?_
                simp

/-- The invariant holds at the seeded initial state. -/
theorem kahnInv_init {s : Analyzer} (wf : AnalyzerWF s) :
    KahnInv s (initDeg s) (seedQueue s) [] := by
  refine ⟨?_, ?_, ?_, ?_, ?_, ?_⟩
  · simpa [seedQueue] using wf.keysNodup.filter _
  · intro x hx
    have hx' : x ∈ seedQueue s := by simpa using hx
    rw [seedQueue] at hx'
    exact List.mem_of_mem_filter hx'
  · intro n
    simp
  · intro r₁ x r₂ hdec
    exact absurd hdec (by cases r₁ <;> simp)
  · intro n hn d hd
    have hn' : n ∈ seedQueue s := by simpa using hn
    rw [seedQueue] at hn'
    have hmem := List.mem_of_mem_filter hn'
    have hcond : initDeg s n = 0 := by simpa using List.of_mem_filter hn'
    rw [initDeg, if_pos hmem] at hcond
    have hlen : (depsOf s n).length = 0 := by exact_mod_cast hcond
    rw [List.length_eq_zero] at hlen
    rw [hlen] at hd
    cases hd
  · intro n hn
    have hn' : n ∈ seedQueue s := by simpa using hn
    rw [seedQueue] at hn'
    have hcond : initDeg s n = 0 := by simpa using List.of_mem_filter hn'
    omega

/-- The queue phase of `topological_sort`: the loop drains its queue, emits
a duplicate-free list of registered keys in dependency-respecting order, and
starts with the seeds in key-insertion order. -/
theorem kahnRun_spec {s : Analyzer} (wf : AnalyzerWF s) :
    (kahnRun s).2 = [] ∧ (kahnRun s).1.Nodup ∧
      (∀ x, x ∈ (kahnRun s).1 → x ∈ objKeys s) ∧
      (∀ r₁ x r₂, (kahnRun s).1 = r₁ ++ x :: r₂ → ∀ d, d ∈ depsOf s x → d ∈ r₁) ∧
      (kahnRun s).1.take (seedQueue s).length = seedQueue s := by
  have h := kahnLoop_spec wf ((objKeys s).length + 1) (initDeg s) (seedQueue s) []
      (kahnInv_init wf) (by simp)
  simpa [kahnRun] using h

/-- `topological_sort` emits every registered object exactly once. -/
theorem topological_sort_perm {s : Analyzer} (wf : AnalyzerWF s) :
    (topological_sort s).Perm (objKeys s) ∧ (topological_sort s).Nodup := by
  obtain ⟨-, hnd, hsub, -, -⟩ := kahnRun_spec wf
  have hndAll : (topological_sort s).Nodup := by
    rw [topological_sort, List.nodup_append]
    refine ⟨hnd, wf.keysNodup.filter _, ?_⟩
    intro x hx hx'
    have := List.of_mem_filter hx'
    simp only [decide_eq_true_eq] at this
    exact this hx
  refine ⟨?_, hndAll⟩
  apply List.perm_of_nodup_nodup_toFinset_eq hndAll wf.keysNodup
  ext x
  simp only [List.mem_toFinset, topological_sort, cycleRemainder, List.mem_append,
    List.mem_filter, decide_eq_true_eq]
  constructor
  · rintro (h | ⟨h, -⟩)
    · exact hsub x h
    · exact h
  · intro h
    by_cases hr : x ∈ (kahnRun s).1
    · exact Or.inl hr
    · exact Or.inr ⟨h, hr⟩

/-- Claim C2, counterexample: in the two-cycle `A depends on B`,
`B depends on A`, both objects appear in the output of `topological_sort`
(cycle members are appended), so for the recorded edge `A depends on B` the
claim requires `B` before `A` — but the output is `[A, B]`. -/
theorem claim_C2_counterexample :
    "B" ∈ depsOf (runOps [.addObj "A" "t", .addObj "B" "t",
        .addDep "A" "B", .addDep "B" "A"]) "A" ∧
      "A" ∈ topological_sort (runOps [.addObj "A" "t", .addObj "B" "t",
        .addDep "A" "B", .addDep "B" "A"]) ∧
      "B" ∈ topological_sort (runOps [.addObj "A" "t", .addObj "B" "t",
        .addDep "A" "B", .addDep "B" "A"]) ∧
      ¬ appearsBefore (topological_sort (runOps [.addObj "A" "t", .addObj "B" "t",
        .addDep "A" "B", .addDep "B" "A"])) "B" "A" :=
  ⟨by decide, by decide, by decide, by decide⟩

/-- Claim C2 (amended): topological correctness holds for the queue phase —
for every recorded edge `a depends on b`, if `a` is emitted by the Kahn
queue phase then `b` appears at a strictly earlier position of the returned
sequence; nodes appended by the cycle-tolerance step are exempt. -/
theorem claim_C2_theorem (ops : List AOp) (a b : String)
    (hedge : b ∈ depsOf (runOps ops) a)
    (hqueue : a ∈ (kahnRun (runOps ops)).1) :
    appearsBefore (topological_sort (runOps ops)) b a := by
  obtain ⟨-, -, -, hord, -⟩ := kahnRun_spec (wf_runOps ops)
  obtain ⟨r₁, r₂, hdec⟩ := List.append_of_mem hqueue
  have hb : b ∈ r₁ := hord r₁ a r₂ hdec b hedge
  rw [topological_sort, hdec]
  have hassoc : (r₁ ++ a :: r₂) ++ cycleRemainder (runOps ops)
      = r₁ ++ (a :: (r₂ ++ cycleRemainder (runOps ops))) := by simp
  rw [hassoc]
  exact appearsBefore_of_mem_parts r₁ _ hb (List.mem_cons_self _ _)

/-- Claim C2, witness: a view depending on a table is emitted after it. -/
theorem claim_C2_witness :
    ("dbo.T" ∈ depsOf (runOps [.addObj "dbo.T" "Tables", .addObj "dbo.V" "Views",
        .addDep "dbo.V" "dbo.T"]) "dbo.V" ∧
      "dbo.V" ∈ (kahnRun (runOps [.addObj "dbo.T" "Tables", .addObj "dbo.V" "Views",
        .addDep "dbo.V" "dbo.T"])).1) ∧
      appearsBefore (topological_sort (runOps [.addObj "dbo.T" "Tables",
        .addObj "dbo.V" "Views", .addDep "dbo.V" "dbo.T"])) "dbo.T" "dbo.V" :=
  ⟨⟨by decide, by decide⟩,
    claim_C2_theorem [.addObj "dbo.T" "Tables", .addObj "dbo.V" "Views",
      .addDep "dbo.V" "dbo.T"] "dbo.V" "dbo.T" (by decide) (by decide)⟩

/-- Claim C3, counterexample: two analyzers with the same node set (as a
permutation) and identical (empty) edge structure, built in different
insertion orders, produce different output sequences — the seed queue is
built in dict-insertion order, not lexicographically. -/
theorem claim_C3_counterexample :
    (objKeys (runOps [.addObj "A" "t", .addObj "B" "t"])).Perm
        (objKeys (runOps [.addObj "B" "t", .addObj "A" "t"])) ∧
      (runOps [.addObj "A" "t", .addObj "B" "t"]).dependencies
        = (runOps [.addObj "B" "t", .addObj "A" "t"]).dependencies ∧
      topological_sort (runOps [.addObj "A" "t", .addObj "B" "t"]) = ["A", "B"] ∧
      topological_sort (runOps [.addObj "B" "t", .addObj "A" "t"]) = ["B", "A"] ∧
      (["A", "B"] : List String) ≠ ["B", "A"] :=
  ⟨by decide, by decide, by decide, by decide, by decide⟩

/-- Claim C3 (amended): `topological_sort` is a deterministic function of
the analyzer state, and its output begins with exactly the zero-in-degree
objects in node-insertion (dict) order — not lexicographic order — so two
runs over the same state agree, while the same node/edge sets inserted in a
different order may produce a different sequence. -/
theorem claim_C3_theorem :
    (∀ ops : List AOp, (topological_sort (runOps ops)).take
        (seedQueue (runOps ops)).length = seedQueue (runOps ops)) ∧
      topological_sort (runOps [.addObj "B" "t", .addObj "A" "t"]) = ["B", "A"] := by
  refine ⟨fun ops => ?_, by decide⟩
  obtain ⟨-, -, -, -, htake⟩ := kahnRun_spec (wf_runOps ops)
  rw [topological_sort]
  have hlen : (seedQueue (runOps ops)).length ≤ (kahnRun (runOps ops)).1.length := by
    have hl := congrArg List.length htake
    simp only [List.length_take] at hl
    omega
  rw [List.take_append_of_le_length hlen]
  exact htake

/-- Claim C6: on every graph — in particular any graph with a dependency
cycle — `topological_sort` terminates (the queue drains), returns a sequence
containing every registered object exactly once, with the unresolved nodes
appended after the queue-phase (acyclic) part, and the cycle warning carries
exactly the unresolved identities; on the three-cycle `A→B→C→A` the output
is `[A, B, C]`, entirely from the cycle remainder, and the warning names
exactly `A`, `B`, `C`. -/
theorem claim_C6_theorem :
    (∀ ops : List AOp,
      (topological_sort (runOps ops)).Perm (objKeys (runOps ops)) ∧
        (topological_sort (runOps ops)).Nodup ∧
        (kahnRun (runOps ops)).2 = [] ∧
        topological_sort (runOps ops)
          = (kahnRun (runOps ops)).1 ++ cycleRemainder (runOps ops)) ∧
      (topological_sort (runOps [.addObj "A" "t", .addObj "B" "t", .addObj "C" "t",
          .addDep "A" "B", .addDep "B" "C", .addDep "C" "A"]) = ["A", "B", "C"] ∧
        (kahnRun (runOps [.addObj "A" "t", .addObj "B" "t", .addObj "C" "t",
          .addDep "A" "B", .addDep "B" "C", .addDep "C" "A"])).1 = [] ∧
        cycleRemainder (runOps [.addObj "A" "t", .addObj "B" "t", .addObj "C" "t",
          .addDep "A" "B", .addDep "B" "C", .addDep "C" "A"]) = ["A", "B", "C"]) := by
  refine ⟨fun ops => ?_, by decide, by decide, by decide⟩
  obtain ⟨hdrain, -, -, -, -⟩ := kahnRun_spec (wf_runOps ops)
  obtain ⟨hperm, hnd⟩ := topological_sort_perm (wf_runOps ops)
  exact ⟨hperm, hnd, hdrain, rfl⟩
